import Mathlib
set_option maxRecDepth 100000

/-!
Verification of the blockchain-go node core against its specification.

This file shallowly embeds the Go sources of the repository (packages
`internal/blockchain` and `internal/network`) in Lean 4 and proves, or
refutes, the frozen claims about them.

Modelling conventions, used throughout:

* Machine bytes are natural numbers below 256 and byte strings are `List Nat`
  (`Bytes`).  Go `int` / `int64` fields are `Int`; where Go converts to a
  fixed width the reduction `% 2^64` (or `% 2^32`) is explicit.
* `crypto/sha256.Sum256` is embedded as a full executable SHA-256 over byte
  lists (`sha256`).
* Go's `encoding/gob` serialization of a `Transaction` is modelled as a
  deterministic length-prefixed big-endian field encoding, the concrete
  codec the specification's §4.1 prescribes for reimplementations ("one
  concrete encoding ... length-prefixed fields in field-declaration order
  with fixed-width big-endian integers").  No claim depends on the exact
  bytes of the codec, only on its determinism and on which fields it reads.
* The LevelDB store is an association list from byte-string keys to values,
  with first-match lookup and replace-or-append `put`; `Handle(err)` /
  `log.Panic` paths are `Option.none`.  The constant `"utxo-"` key prefix,
  and the hex-string rendering of transaction ids used as map keys, are
  injective namespacing devices and are dropped: UTXO-index and mempool
  keys are the raw transaction-id bytes.
* The in-memory `Blockchain.LastHash` field and the store's `"lh"` key are
  written together on every path in the sources; they are modelled as the
  single field `NodeState.LastHash`.  The two-byte key `"lh"` cannot
  collide with a 32-byte SHA-256 block hash.
* Wall-clock timestamps, the proof-of-work search outcome, `crypto/rand`
  randomness and ECDSA signing nonces are nondeterministic inputs; the
  embedding passes them as explicit parameters to the functions that read
  them.  The ECDSA primitive `crypto/ecdsa.Verify` is passed as a function
  parameter where a claim does not depend on its internals.
-/

namespace BlockchainGo

/-- Byte strings: lists of byte values (naturals below 256). -/
abbrev Bytes := List Nat

/-- Truncation to a 32-bit word. -/
def w32 (n : Nat) : Nat := n % 4294967296

/-- 32-bit right rotation. -/
def rotr32 (k x : Nat) : Nat := w32 (x >>> k ||| x <<< (32 - k))

/-- SHA-256 `Ch` function. -/
def shaCh (x y z : Nat) : Nat := (x &&& y) ^^^ ((x ^^^ 4294967295) &&& z)

/-- SHA-256 `Maj` function. -/
def shaMaj (x y z : Nat) : Nat := (x &&& y) ^^^ (x &&& z) ^^^ (y &&& z)

/-- SHA-256 big sigma 0. -/
def shaS0 (x : Nat) : Nat := rotr32 2 x ^^^ rotr32 13 x ^^^ rotr32 22 x

/-- SHA-256 big sigma 1. -/
def shaS1 (x : Nat) : Nat := rotr32 6 x ^^^ rotr32 11 x ^^^ rotr32 25 x

/-- SHA-256 small sigma 0. -/
def shaLs0 (x : Nat) : Nat := rotr32 7 x ^^^ rotr32 18 x ^^^ (x >>> 3)

/-- SHA-256 small sigma 1. -/
def shaLs1 (x : Nat) : Nat := rotr32 17 x ^^^ rotr32 19 x ^^^ (x >>> 10)

/-- The 64 SHA-256 round constants. -/
def shaK : List Nat :=
  [1116352408, 1899447441, 3049323471, 3921009573, 961987163,
   1508970993, 2453635748, 2870763221, 3624381080, 310598401,
   607225278, 1426881987, 1925078388, 2162078206, 2614888103,
   3248222580, 3835390401, 4022224774, 264347078, 604807628,
   770255983, 1249150122, 1555081692, 1996064986, 2554220882,
   2821834349, 2952996808, 3210313671, 3336571891, 3584528711,
   113926993, 338241895, 666307205, 773529912, 1294757372,
   1396182291, 1695183700, 1986661051, 2177026350, 2456956037,
   2730485921, 2820302411, 3259730800, 3345764771, 3516065817,
   3600352804, 4094571909, 275423344, 430227734, 506948616,
   659060556, 883997877, 958139571, 1322822218, 1537002063,
   1747873779, 1955562222, 2024104815, 2227730452, 2361852424,
   2428436474, 2756734187, 3204031479, 3329325298]

/-- Big-endian encoding of `n % 256^k` on exactly `k` bytes. -/
def beBytes : Nat → Nat → Bytes
  | 0, _ => []
  | k+1, n => beBytes k (n / 256) ++ [n % 256]

/-- SHA-256 padding: append `0x80`, zeros, and the 64-bit big-endian bit length. -/
def sha256Pad (msg : Bytes) : Bytes :=
  msg ++ [128] ++ List.replicate ((64 + 55 - msg.length % 64) % 64) 0 ++ beBytes 8 (8 * msg.length)

/-- Group a byte list into big-endian 32-bit words (four bytes per word). -/
def toWords : Bytes → List Nat
  | a :: b :: c :: d :: rest => (((a * 256 + b) * 256 + c) * 256 + d) :: toWords rest
  | _ => []

/-- Extend a reversed 16-word message schedule by `k` further words. -/
def extendW (ws : List Nat) : Nat → List Nat
  | 0 => ws
  | k+1 =>
    extendW (w32 (shaLs1 (ws.getD 1 0) + ws.getD 6 0 + shaLs0 (ws.getD 14 0) + ws.getD 15 0) :: ws) k

/-- The eight 32-bit words of a SHA-256 state. -/
structure Sha8 where
  a : Nat
  b : Nat
  c : Nat
  d : Nat
  e : Nat
  f : Nat
  g : Nat
  h : Nat
deriving Repr, DecidableEq

/-- One SHA-256 round, consuming a round constant paired with a schedule word. -/
def shaRound (st : Sha8) (kw : Nat × Nat) : Sha8 :=
  let t1 := w32 (st.h + shaS1 st.e + shaCh st.e st.f st.g + kw.1 + kw.2)
  let t2 := w32 (shaS0 st.a + shaMaj st.a st.b st.c)
  ⟨w32 (t1 + t2), st.a, st.b, st.c, w32 (st.d + t1), st.e, st.f, st.g⟩

/-- Compress one 16-word block into the running state. -/
def shaCompress (st : Sha8) (block : List Nat) : Sha8 :=
  let w := (extendW block.reverse 48).reverse
  let r := (shaK.zip w).foldl shaRound st
  ⟨w32 (st.a + r.a), w32 (st.b + r.b), w32 (st.c + r.c), w32 (st.d + r.d),
   w32 (st.e + r.e), w32 (st.f + r.f), w32 (st.g + r.g), w32 (st.h + r.h)⟩

/-- Fold the compression function over the padded message, 16 words at a time. -/
def shaBlocks (st : Sha8) : List Nat → Sha8
  | w0 :: w1 :: w2 :: w3 :: w4 :: w5 :: w6 :: w7 ::
    w8 :: w9 :: w10 :: w11 :: w12 :: w13 :: w14 :: w15 :: rest =>
    shaBlocks (shaCompress st [w0, w1, w2, w3, w4, w5, w6, w7,
                               w8, w9, w10, w11, w12, w13, w14, w15]) rest
  | _ => st

/-- The SHA-256 initial state. -/
def shaInit : Sha8 :=
  ⟨1779033703, 3144134277, 1013904242, 2773480762,
   1359893119, 2600822924, 528734635, 1541459225⟩

/-- SHA-256 of a byte string, as its 32 digest bytes.  Embeds Go's
`crypto/sha256.Sum256`. -/
def sha256 (msg : Bytes) : Bytes :=
  let st := shaBlocks shaInit (toWords (sha256Pad msg))
  beBytes 4 st.a ++ beBytes 4 st.b ++ beBytes 4 st.c ++ beBytes 4 st.d ++
  beBytes 4 st.e ++ beBytes 4 st.f ++ beBytes 4 st.g ++ beBytes 4 st.h

/-- A byte string read as a big-endian unsigned integer, as Go's
`big.Int.SetBytes` does. -/
def bytesToNat (bs : Bytes) : Nat := bs.foldl (fun acc b => acc * 256 + b) 0

/-- Minimal big-endian bytes of a natural number, as Go's `big.Int.Bytes`:
no leading zeros, and `0` encodes to the empty string.  The first argument
is recursion fuel; `n` itself always suffices. -/
def natBytesAux : Nat → Nat → Bytes
  | 0, _ => []
  | fuel+1, n => if n = 0 then [] else natBytesAux fuel (n / 256) ++ [n % 256]

/-- Minimal big-endian encoding of a natural number (`big.Int.Bytes`). -/
def natBytes (n : Nat) : Bytes := natBytesAux n n

/-- Go's `toHex(int64)` helper (proof.go): 8 bytes, big-endian, two's
complement (`binary.Write` with `binary.BigEndian`). -/
def toHex (num : Int) : Bytes := beBytes 8 (num.emod 18446744073709551616).toNat

/-- First-match lookup in an association-list store (a LevelDB `Get`). -/
def getKV {α : Type} (k : Bytes) : List (Bytes × α) → Option α
  | [] => none
  | (k0, v) :: rest => if k0 = k then some v else getKV k rest

/-- Replace-or-append write in an association-list store (a LevelDB `Put`). -/
def putKV {α : Type} (k : Bytes) (v : α) : List (Bytes × α) → List (Bytes × α)
  | [] => [(k, v)]
  | (k0, v0) :: rest => if k0 = k then (k, v) :: rest else (k0, v0) :: putKV k v rest

/-- Key deletion in an association-list store (a LevelDB `Delete`). -/
def delKV {α : Type} (k : Bytes) : List (Bytes × α) → List (Bytes × α)
  | [] => []
  | (k0, v0) :: rest => if k0 = k then rest else (k0, v0) :: delKV k rest

/-- A transaction input (transaction.go `TXInput`): the id of the
transaction holding the spent output, the output's index, the signature,
and the spender's raw public key. -/
structure TXInput where
  ID : Bytes
  Out : Int
  Signature : Bytes
  PubKey : Bytes
deriving Repr, DecidableEq

/-- A transaction output (transaction.go `TXOutput`): a value and the hash
of the recipient's public key. -/
structure TXOutput where
  Value : Int
  PubKeyHash : Bytes
deriving Repr, DecidableEq

/-- A transaction (transaction.go `Transaction`). -/
structure Transaction where
  ID : Bytes
  Inputs : List TXInput
  Outputs : List TXOutput
deriving Repr, DecidableEq

/-- A block, in its current shape (block.go): header fields plus the
transaction list, with the stored difficulty and merkle root. -/
structure Block where
  Timestamp : Int
  Hash : Bytes
  Transactions : List Transaction
  PrevHash : Bytes
  Nonce : Int
  Height : Int
  Difficulty : Int
  MerkleRoot : Bytes
deriving Repr, DecidableEq

/-- A `u32` big-endian length header followed by the raw bytes: one field of
the deterministic codec (spec §4.1) standing in for `encoding/gob`. -/
def encBytes (b : Bytes) : Bytes := beBytes 4 b.length ++ b

/-- An `i32` field of the codec, big-endian two's complement. -/
def encInt32 (i : Int) : Bytes := beBytes 4 (i.emod 4294967296).toNat

/-- An `i64` field of the codec, big-endian two's complement. -/
def encInt64 (i : Int) : Bytes := beBytes 8 (i.emod 18446744073709551616).toNat

/-- Codec for a transaction input: fields in declaration order. -/
def TXInput.enc (i : TXInput) : Bytes :=
  encBytes i.ID ++ encInt32 i.Out ++ encBytes i.Signature ++ encBytes i.PubKey

/-- Codec for a transaction output: fields in declaration order. -/
def TXOutput.enc (o : TXOutput) : Bytes :=
  encInt64 o.Value ++ encBytes o.PubKeyHash

/-- Codec for a list: a `u32` count followed by the encoded elements. -/
def encList {α : Type} (f : α → Bytes) (l : List α) : Bytes :=
  beBytes 4 l.length ++ (l.map f).flatten

/-- Embeds `Transaction.Serialize` (transaction.go): the deterministic binary
encoding of a transaction, fields in declaration order.  The Go code uses
`encoding/gob`; the spec's §4.1 abstracts the codec to any single
deterministic encoding, which is how it is modelled here (see the header). -/
def Transaction.Serialize (tx : Transaction) : Bytes :=
  encBytes tx.ID ++ encList TXInput.enc tx.Inputs ++ encList TXOutput.enc tx.Outputs

/-- Embeds `Transaction.Hash` (transaction.go): SHA-256 of the serialization of the
transaction with its `ID` field cleared. -/
def Transaction.Hash (tx : Transaction) : Bytes :=
  sha256 (Transaction.Serialize { tx with ID := [] })

/-- Embeds `Transaction.IsCoinbase` (transaction.go): one input whose referenced
transaction id is empty and whose output index is `-1`. -/
def Transaction.IsCoinbase (tx : Transaction) : Bool :=
  tx.Inputs.length = 1 && (tx.Inputs.getD 0 ⟨[], 0, [], []⟩).ID.length = 0 &&
    (tx.Inputs.getD 0 ⟨[], 0, [], []⟩).Out = -1

/-- Embeds `Transaction.TrimmedCopy` (transaction.go): same ids and outputs, every
input with its signature and public key cleared. -/
def Transaction.TrimmedCopy (tx : Transaction) : Transaction :=
  { ID := tx.ID,
    Inputs := tx.Inputs.map (fun i => { ID := i.ID, Out := i.Out, Signature := [], PubKey := [] }),
    Outputs := tx.Outputs }

/-- Go slice expression `l[i:j]`: defined when `i ≤ j ≤ len l`, a panic
(`none`) otherwise. -/
def goSlice {α : Type} (l : List α) (i j : Nat) : Option (List α) :=
  if i ≤ j ∧ j ≤ l.length then some ((l.take j).drop i) else none

/-- Go index expression `l[i]` with an `int` index: panics (`none`) when the
index is negative or out of range. -/
def goIndex {α : Type} (l : List α) (i : Int) : Option α :=
  if h : 0 ≤ i ∧ i.toNat < l.length then some (l.get ⟨i.toNat, h.2⟩) else none

/-- A merkle node (merkle.go `MerkleNode`): child pointers and a data hash. -/
inductive MerkleNode where
  | node (left right : Option MerkleNode) (data : Bytes)
deriving Repr

/-- The `Data` field of a merkle node. -/
def MerkleNode.Data : MerkleNode → Bytes
  | .node _ _ d => d

/-- Embeds `NewMerkleNode` (merkle.go): a leaf hashes its data; an internal node
hashes the concatenation of its children's data.  With exactly one `nil`
child the Go code dereferences a nil pointer, hence `none`. -/
def NewMerkleNode (left right : Option MerkleNode) (data : Bytes) : Option MerkleNode :=
  match left, right with
  | none, none => some (.node none none (sha256 data))
  | some l, some r => some (.node left right (sha256 (l.Data ++ r.Data)))
  | _, _ => none

/-- The inner pairing loop of `NewMerkleTree` (merkle.go, `j += 2`): combine
adjacent nodes; on an odd-length level the access `nodes[j+1]` is out of
range, a Go panic (`none`). -/
def pairPass : List MerkleNode → Option (List MerkleNode)
  | [] => some []
  | [_] => none
  | a :: b :: rest => do
    let n ← NewMerkleNode (some a) (some b) []
    let r ← pairPass rest
    some (n :: r)

/-- The outer loop of `NewMerkleTree`: `len(data)/2` pairing passes. -/
def merklePasses : Nat → List MerkleNode → Option (List MerkleNode)
  | 0, nodes => some nodes
  | k+1, nodes => do merklePasses k (← pairPass nodes)

/-- Embeds `NewMerkleTree` (merkle.go): duplicate the last element when the input
list has odd length, hash every element into a leaf, then run
`len(data)/2` pairing passes and take `nodes[0]`.  Go panics (`none`) when
the input is empty, and on any pairing pass over an odd number of nodes. -/
def NewMerkleTree (data : List Bytes) : Option MerkleNode := do
  let d := if data.length % 2 ≠ 0 then data ++ [data.getLastD []] else data
  let leaves := d.map (fun dat => MerkleNode.node none none (sha256 dat))
  match ← merklePasses (d.length / 2) leaves with
  | [] => none
  | n :: _ => some n

/-- Embeds `Block.HashTransactions` (block.go): the merkle root over the
serializations of the block's transactions. -/
def hashTransactionsList (txs : List Transaction) : Option Bytes :=
  (NewMerkleTree (txs.map Transaction.Serialize)).map MerkleNode.Data

/-- The mining difficulty constant (config.go `Difficulty`). -/
def Difficulty : Int := 22

/-- The genesis difficulty constant (config.go `GenesisDifficulty`). -/
def GenesisDifficulty : Int := 16

/-- The initial mining subsidy (config.go `InitialSubsidy`). -/
def InitialSubsidy : Int := 50

/-- Heights between reward halvings (config.go `HalvingInterval`). -/
def HalvingInterval : Int := 210000

/-- The halving loop of `GetBlockReward`: `reward /= 2`, `k` times, with
Go's truncating `int` division. -/
def halveLoop (r : Int) : Nat → Int
  | 0 => r
  | k+1 => halveLoop (Int.tdiv r 2) k

/-- Embeds `GetBlockReward` (config.go): start from `InitialSubsidy`, halve once
per completed `HalvingInterval`, and return `0` once the halved value
drops below `1`. -/
def GetBlockReward (height : Int) : Int :=
  let reward := halveLoop InitialSubsidy (Int.tdiv height HalvingInterval).toNat
  if reward < 1 then 0 else reward

/-- A proof-of-work instance (proof.go `ProofOfWork`): the block (field
`Block`, here `Blk`), the numeric target, and the difficulty the instance
was built with. -/
structure ProofOfWork where
  Blk : Block
  Target : Nat
  Diff : Int
deriving Repr, DecidableEq

/-- Embeds `NewProofWithDifficulty` (proof.go): target `1 << (256 - difficulty)`,
and the block's own `Difficulty` field is set to the given difficulty when
it is still zero.  (For `difficulty > 256` the Go `uint` conversion wraps
and the shift is astronomically large; the embedding is faithful for
`difficulty ≤ 256`, the only values the claims concern.) -/
def NewProofWithDifficulty (b : Block) (difficulty : Int) : ProofOfWork :=
  let target : Nat := 2 ^ (256 - difficulty).toNat
  let b1 := if b.Difficulty = 0 then { b with Difficulty := difficulty } else b
  ⟨b1, target, difficulty⟩

/-- Embeds `NewProof` (proof.go): a proof-of-work instance at the global constant
difficulty. -/
def NewProof (b : Block) : ProofOfWork := NewProofWithDifficulty b Difficulty

/-- Embeds `ProofOfWork.InitData` (proof.go): the digest preimage — previous hash,
the block's stored merkle root, then `toHex` of the nonce, of the block's
stored difficulty, and of the timestamp. -/
def ProofOfWork.InitData (pow : ProofOfWork) (nonce : Int) : Bytes :=
  pow.Blk.PrevHash ++ pow.Blk.MerkleRoot ++ toHex nonce ++ toHex pow.Blk.Difficulty ++
    toHex pow.Blk.Timestamp

/-- Embeds `ProofOfWork.Validate` (proof.go): hash the preimage at the block's
stored nonce and compare against the target as big-endian integers. -/
def ProofOfWork.Validate (pow : ProofOfWork) : Bool :=
  bytesToNat (sha256 (pow.InitData pow.Blk.Nonce)) < pow.Target

/-- The signature of the abstract ECDSA verification primitive
(`crypto/ecdsa.Verify`): public-key coordinates, digest, and the signature
pair `(r, s)`. -/
abbrev EcdsaVerify := Nat → Nat → Bytes → Nat → Nat → Bool

/-- The trimmed copy of `tx` with input `idx`'s `PubKey` replaced — the
state in which both `Sign` and `Verify` hash the transaction to obtain the
digest for input `idx`. -/
def digestFor (tx : Transaction) (idx : Nat) (pkh : Bytes) : Bytes :=
  let t := tx.TrimmedCopy
  Transaction.Hash
    { t with Inputs := t.Inputs.set idx { ID := (t.Inputs.getD idx ⟨[], 0, [], []⟩).ID,
                                          Out := (t.Inputs.getD idx ⟨[], 0, [], []⟩).Out,
                                          Signature := [], PubKey := pkh } }

/-- The per-input panic guard shared by `Sign` and `Verify`
(transaction.go): every input's referenced transaction must be present in
`prevTXs` with a non-empty id, else `log.Panic`. -/
def checkPrevs (prevTXs : List (Bytes × Transaction)) : List TXInput → Option Unit
  | [] => some ()
  | i :: rest => do
    let p ← getKV i.ID prevTXs
    if p.ID = [] then none else checkPrevs prevTXs rest

/-- The signing loop of `Transaction.Sign` (transaction.go): for input
`idx`, hash the trimmed copy with that input's `PubKey` set to the spent
output's `PubKeyHash`, obtain `(r, s)` from the ECDSA signer (a
nondeterministic input, passed as `sigOf`), and store the unpadded
concatenation `r.Bytes() ++ s.Bytes()` as the input's signature. -/
def signLoop (tx : Transaction) (prevTXs : List (Bytes × Transaction))
    (sigOf : Nat → Bytes → Nat × Nat) : Nat → List TXInput → Option (List TXInput)
  | _, [] => some []
  | idx, i :: rest => do
    let prevTX ← getKV i.ID prevTXs
    let out ← goIndex prevTX.Outputs i.Out
    let digest := digestFor tx idx out.PubKeyHash
    let rest1 ← signLoop tx prevTXs sigOf (idx + 1) rest
    some ({ ID := i.ID, Out := i.Out,
            Signature := natBytes (sigOf idx digest).1 ++ natBytes (sigOf idx digest).2,
            PubKey := i.PubKey } :: rest1)

/-- Embeds `Transaction.Sign` (transaction.go): a coinbase is returned unchanged;
otherwise every input's signature is rewritten by the signing loop.  The
`ID` and `Outputs` fields are never touched. -/
def Transaction.SignGo (tx : Transaction) (prevTXs : List (Bytes × Transaction))
    (sigOf : Nat → Bytes → Nat × Nat) : Option Transaction :=
  if tx.IsCoinbase then some tx
  else do
    let _ ← checkPrevs prevTXs tx.Inputs
    let inputs1 ← signLoop tx prevTXs sigOf 0 tx.Inputs
    some { tx with Inputs := inputs1 }

/-- The verification loop of `Transaction.Verify` (transaction.go): for
each input, recompute the digest the signer hashed, split the stored
signature and public key at half length, and call the ECDSA primitive. -/
def verifyLoop (ev : EcdsaVerify) (tx : Transaction)
    (prevTXs : List (Bytes × Transaction)) : Nat → List TXInput → Option Bool
  | _, [] => some true
  | idx, i :: rest => do
    let prevTX ← getKV i.ID prevTXs
    let out ← goIndex prevTX.Outputs i.Out
    let digest := digestFor tx idx out.PubKeyHash
    let r := bytesToNat (i.Signature.take (i.Signature.length / 2))
    let s := bytesToNat (i.Signature.drop (i.Signature.length / 2))
    let x := bytesToNat (i.PubKey.take (i.PubKey.length / 2))
    let y := bytesToNat (i.PubKey.drop (i.PubKey.length / 2))
    if ev x y digest r s then verifyLoop ev tx prevTXs (idx + 1) rest else some false

/-- Embeds `Transaction.Verify` (transaction.go): a coinbase is trivially valid;
otherwise run the panic guard and the per-input verification loop. -/
def Transaction.VerifyGo (ev : EcdsaVerify) (tx : Transaction)
    (prevTXs : List (Bytes × Transaction)) : Option Bool :=
  if tx.IsCoinbase then some true
  else do
    let _ ← checkPrevs prevTXs tx.Inputs
    verifyLoop ev tx prevTXs 0 tx.Inputs

/-- The node state: the block store (block hash to block), the tip pointer
(`"lh"` key and the in-memory `LastHash`, kept in sync by the sources), the
UTXO index (keys are transaction ids, the `"utxo-"` namespacing dropped),
the mempool, and the number of tokens buffered in the mining-interrupt
channel (capacity 10 in server.go). -/
structure NodeState where
  Store : List (Bytes × Block)
  LastHash : Bytes
  UTXO : List (Bytes × List TXOutput)
  Mempool : List (Bytes × Transaction)
  Interrupt : Nat
deriving Repr, DecidableEq

/-- The blockchain iterator (blockchain.go `Iterator`/`Next`): follow
`PrevHash` links from a starting hash until a block with an empty
`PrevHash`; a missing key is `Handle(err)`, a panic.  The fuel bounds the
walk; a walk that would exceed it revisits a key and thus loops forever in
Go, also `none`. -/
def chainFrom (store : List (Bytes × Block)) : Bytes → Nat → Option (List Block)
  | _, 0 => none
  | h, fuel+1 => do
    let b ← getKV h store
    if b.PrevHash = [] then some [b] else
      some (b :: (← chainFrom store b.PrevHash fuel))

/-- The block list of a node, tip first (the iteration every chain scan in
blockchain.go performs). -/
def blocksOf (s : NodeState) : Option (List Block) :=
  chainFrom s.Store s.LastHash (s.Store.length + 1)

/-- Embeds `Blockchain.FindTransaction` (blockchain.go): first transaction with a
matching id on the walk from the tip. -/
def findTxInBlocks (i : Bytes) : List Block → Option Transaction
  | [] => none
  | b :: rest =>
    match b.Transactions.find? (fun tx => tx.ID = i) with
    | some tx => some tx
    | none => findTxInBlocks i rest

/-- One transaction step of `Blockchain.FindAllUTXO` (blockchain.go):
record the outputs of `tx` not yet marked spent (the entry is only written
when at least one output survives, exactly as the Go map assignment inside
the output loop), then mark the outputs consumed by `tx`'s inputs. -/
def processTx (acc : List (Bytes × List TXOutput) × List (Bytes × List Int))
    (tx : Transaction) : List (Bytes × List TXOutput) × List (Bytes × List Int) :=
  let spentIdxs := (getKV tx.ID acc.2).getD []
  let newOuts := ((tx.Outputs.enum).filter
    (fun p => ¬ ((p.1 : Int) ∈ spentIdxs))).map Prod.snd
  let u := if newOuts = [] then acc.1
           else putKV tx.ID ((getKV tx.ID acc.1).getD [] ++ newOuts) acc.1
  let sp := if tx.IsCoinbase then acc.2
            else tx.Inputs.foldl
              (fun m i => putKV i.ID ((getKV i.ID m).getD [] ++ [i.Out]) m) acc.2
  (u, sp)

/-- Embeds `Blockchain.FindAllUTXO` (blockchain.go): walk the given block list
(tip first), building the unspent-output map and the spent set. -/
def findAllUTXO (bs : List Block) : List (Bytes × List TXOutput) :=
  (bs.foldl (fun acc b => b.Transactions.foldl processTx acc) ([], [])).1

/-- Embeds `UTXOSet.Reindex` (utxo.go) as a function of the store and the tip:
drop every UTXO entry and rebuild from `FindAllUTXO` over the chain walk. -/
def reindexOf (store : List (Bytes × Block)) (lh : Bytes) :
    Option (List (Bytes × List TXOutput)) :=
  (chainFrom store lh (store.length + 1)).map findAllUTXO

/-- The per-input removal step of `UTXOSet.Update` (utxo.go): load the
entry for the input's transaction id (`Handle(err)` on a missing key),
keep the outputs whose position in the *stored list* differs from the
input's `Out` index, and delete the key when nothing remains. -/
def updateSpend (u : List (Bytes × List TXOutput)) (i : TXInput) :
    Option (List (Bytes × List TXOutput)) := do
  let outs ← getKV i.ID u
  let updated := ((outs.enum).filter (fun p => (p.1 : Int) ≠ i.Out)).map Prod.snd
  if updated = [] then some (delKV i.ID u) else some (putKV i.ID updated u)

/-- Embeds `UTXOSet.Update` (utxo.go): for each transaction of the block, remove
the spent outputs of its inputs (skipped for a coinbase), then store the
transaction's full output list under its id. -/
def updateUTXO (u : List (Bytes × List TXOutput)) (block : Block) :
    Option (List (Bytes × List TXOutput)) :=
  block.Transactions.foldlM
    (fun acc tx => do
      let acc1 ← if tx.IsCoinbase then some acc else tx.Inputs.foldlM updateSpend acc
      some (putKV tx.ID tx.Outputs acc1))
    u

/-- The `prevTXs` map construction of `Blockchain.VerifyTransaction`
(blockchain.go): a lookup failure makes the whole verification false. -/
def collectPrevs (bs : List Block) : List TXInput → Option (List (Bytes × Transaction))
  | [] => some []
  | i :: rest => do
    let p ← findTxInBlocks i.ID bs
    let r ← collectPrevs bs rest
    some ((p.ID, p) :: r)

/-- Embeds `Blockchain.VerifyTransaction` (blockchain.go): a coinbase is valid;
otherwise resolve every input's previous transaction by a chain scan —
returning `false` (not a panic) when one is missing — and run
`Transaction.Verify`. -/
def chainVerifyTransaction (ev : EcdsaVerify) (s : NodeState) (tx : Transaction) :
    Option Bool :=
  if tx.IsCoinbase then some true
  else do
    let bs ← blocksOf s
    match collectPrevs bs tx.Inputs with
    | none => some false
    | some prevTXs => tx.VerifyGo ev prevTXs

/-- The non-blocking send into the mining-interrupt channel (server.go
`select { case s.miningInterrupt <- true: default: }`, buffer 10). -/
def nbSend (n : Nat) : Nat := if n < 10 then n + 1 else n

/-- Embeds `Server.addBlock` (server.go): read the tip height (`Handle` panic when
the tip block is missing); accept only a block at exactly the next height
whose proof-of-work validates at the block's stored difficulty; on accept,
persist the block, move the tip, rebuild the UTXO index by a full reindex
(a panic when the new chain walk fails), and make a non-blocking interrupt
send.  Every other case leaves the state untouched. -/
def serverAddBlock (s : NodeState) (block : Block) : Option NodeState := do
  let tip ← getKV s.LastHash s.Store
  if block.Height = tip.Height + 1 then
    if (NewProofWithDifficulty block block.Difficulty).Validate then do
      let store1 := putKV block.Hash block s.Store
      let u ← reindexOf store1 block.Hash
      some { Store := store1, LastHash := block.Hash, UTXO := u,
             Mempool := s.Mempool, Interrupt := nbSend s.Interrupt }
    else some s
  else some s

/-- Embeds `Server.handleTx` (server.go): insert the decoded transaction into the
mempool under its id.  No validation of any kind is performed. -/
def handleTx (s : NodeState) (tx : Transaction) : NodeState :=
  { s with Mempool := putKV tx.ID tx s.Mempool }

/-- The mempool scan of `Server.mineTransactions` (server.go): keep the
transactions that pass `Blockchain.VerifyTransaction`; a panic inside the
verifier propagates. -/
def collectValid (ev : EcdsaVerify) (s : NodeState) :
    List (Bytes × Transaction) → Option (List Transaction)
  | [] => some []
  | (_, tx) :: rest => do
    let ok ← chainVerifyTransaction ev s tx
    let r ← collectValid ev s rest
    some (if ok then tx :: r else r)

/-- Modelled from the spec: the repository's `base58.go` is not among the
provided sources (only its callers `TXOutput.Lock`, `Wallet.Address` and
`ValidateAddress` are).  The spec (§2, §3) fixes addresses as Base58Check
over `version || pubkey_hash || checksum` with the Bitcoin alphabet; this
is that alphabet, as ASCII byte values (`1`–`9`, `A`–`Z` without `I`/`O`,
`a`–`z` without `l`). -/
def b58Alphabet : Bytes :=
  [49, 50, 51, 52, 53, 54, 55, 56, 57,
   65, 66, 67, 68, 69, 70, 71, 72, 74, 75, 76, 77, 78, 80, 81, 82, 83, 84, 85, 86, 87, 88, 89, 90,
   97, 98, 99, 100, 101, 102, 103, 104, 105, 106, 107, 109, 110, 111, 112, 113, 114, 115, 116,
   117, 118, 119, 120, 121, 122]

/-- Modelled from the spec: `Base58Decode` (missing `base58.go`).  Standard
base-58 positional decoding: fold the digit values into a big integer,
emit its minimal big-endian bytes, and restore one leading zero byte per
leading `1` character.  Only well-formed addresses (every character in the
alphabet) are relevant to the claims. -/
def Base58Decode (input : Bytes) : Bytes :=
  List.replicate (input.takeWhile (fun c => c = 49)).length 0 ++
    natBytes (input.foldl (fun acc c => acc * 58 + b58Alphabet.indexOf c) 0)

/-- Embeds `NewTXOutput` + `TXOutput.Lock` (transaction.go): decode the address
and strip the 1-byte version and the 4-byte checksum with the Go slice
`pubKeyHash[1 : len(pubKeyHash)-4]` (a panic, `none`, when the decoding is
shorter than 5 bytes). -/
def NewTXOutput (value : Int) (address : Bytes) : Option TXOutput := do
  let dec := Base58Decode address
  let pkh ← goSlice dec 1 (dec.length - 4)
  some ⟨value, pkh⟩

/-- Modelled from the spec: the current three-argument `CoinbaseTX` is not
among the provided sources (only its callers in blockchain.go / server.go
and the repository document showing its body are).  Per spec §4.6 and that
document: one sentinel input (empty previous id, index `-1`, no signature,
the coinbase data as `PubKey`), one output of value `GetBlockReward height`
locked to the recipient, and the id computed by `Transaction.Hash`.  When
`data` is empty the Go code draws 24 random bytes; that draw is the
`randData` parameter. -/
def CoinbaseTX (toAddr data randData : Bytes) (height : Int) : Option Transaction := do
  let d := if data = [] then randData else data
  let txout ← NewTXOutput (GetBlockReward height) toAddr
  let tx0 : Transaction := ⟨[], [⟨[], -1, [], d⟩], [txout]⟩
  some { tx0 with ID := tx0.Hash }

/-- The construction-and-sign tail of `NewTransaction` (transaction.go
lines 141–143): build the transaction from the selected inputs and
outputs, set `ID := Hash`, then sign every input.  The UTXO selection and
the chain's previous-transaction resolution feed in as `inputs`/`outputs`
and `prevTXs`. -/
def NewTransactionCore (inputs : List TXInput) (outputs : List TXOutput)
    (prevTXs : List (Bytes × Transaction)) (sigOf : Nat → Bytes → Nat × Nat) : Option Transaction :=
  let tx0 : Transaction := ⟨[], inputs, outputs⟩
  Transaction.SignGo { tx0 with ID := tx0.Hash } prevTXs sigOf

/-- Embeds `CreateBlockWithInterrupt` (block.go): fill the header, compute and
store the merkle root once (a panic, outer `none`, when the merkle
construction panics), then run the interruptible search.  The search
outcome is the nondeterministic input `outcome`: `none` models an
interrupted search (the function returns Go `nil`, inner `none`), and
`some (nonce, hash, ts)` a successful search ending with that nonce, hash
and final timestamp. -/
def CreateBlockWithInterrupt (txs : List Transaction) (prevHash : Bytes) (height : Int)
    (outcome : Option (Int × Bytes × Int)) : Option (Option Block) := do
  let root ← hashTransactionsList txs
  match outcome with
  | none => some none
  | some (nonce, hash, finalTs) =>
    some (some ⟨finalTs, hash, txs, prevHash, nonce, height, Difficulty, root⟩)

/-- The transaction pre-check of `MineBlockWithInterrupt` (blockchain.go):
`log.Panic` (`none`) on the first transaction failing verification. -/
def verifyAllOrPanic (ev : EcdsaVerify) (s : NodeState) : List Transaction → Option Unit
  | [] => some ()
  | tx :: rest => do
    let ok ← chainVerifyTransaction ev s tx
    if ok then verifyAllOrPanic ev s rest else none

/-- Embeds `Blockchain.MineBlockWithInterrupt` (blockchain.go): verify every
transaction, read the tip block and its height, build the next block at
height `tip + 1`, and — unless the search was interrupted — persist it and
move the tip. -/
def MineBlockWithInterrupt (ev : EcdsaVerify) (s : NodeState) (txs : List Transaction)
    (outcome : Option (Int × Bytes × Int)) : Option (NodeState × Option Block) := do
  let _ ← verifyAllOrPanic ev s txs
  let lastBlock ← getKV s.LastHash s.Store
  match ← CreateBlockWithInterrupt txs s.LastHash (lastBlock.Height + 1) outcome with
  | none => some (s, none)
  | some nb =>
    some ({ s with Store := putKV nb.Hash nb s.Store, LastHash := nb.Hash }, some nb)

/-- Embeds `Blockchain.AddBlock` (blockchain.go): a no-op when the block is
already stored; otherwise persist it and move the tip exactly when the
incoming height exceeds the current tip block's height. -/
def AddBlockGo (s : NodeState) (block : Block) : Option NodeState :=
  if (getKV block.Hash s.Store).isSome then some s
  else
    let store1 := putKV block.Hash block s.Store
    do
      let lastBlock ← getKV s.LastHash store1
      if lastBlock.Height < block.Height then
        some { s with Store := store1, LastHash := block.Hash }
      else some { s with Store := store1 }

/-- The height of the block the tip pointer currently designates. -/
def tipHeight (s : NodeState) : Option Int := (getKV s.LastHash s.Store).map Block.Height

/-- The transaction selection of `Server.mineTransactions` (server.go):
the verification-passing mempool entries followed by a fresh coinbase for
the mining address at the next height (its random data drawn as
`randData`). -/
def mineTxsSelect (ev : EcdsaVerify) (s : NodeState) (minerAddress randData : Bytes) :
    Option (List Transaction) := do
  let valid ← collectValid ev s s.Mempool
  let tip ← getKV s.LastHash s.Store
  let cbTx ← CoinbaseTX minerAddress [] randData (tip.Height + 1)
  some (valid ++ [cbTx])

/-- Concrete data: a two-output transaction, coinbase-shaped, for the UTXO
incremental-update scenario. -/
def c9T : Transaction := ⟨[1], [⟨[], -1, [], [7]⟩], [⟨10, [1]⟩, ⟨20, [2]⟩]⟩

/-- Concrete data: a transaction spending output 0 of `c9T`. -/
def c9U : Transaction := ⟨[2], [⟨[1], 0, [], []⟩], [⟨10, [3]⟩]⟩

/-- Concrete data: a transaction spending output 1 of `c9T`. -/
def c9V : Transaction := ⟨[3], [⟨[1], 1, [], []⟩], [⟨20, [4]⟩]⟩

/-- Concrete data: the block carrying `c9T`. -/
def c9B1 : Block := ⟨0, [101], [c9T], [], 0, 0, 16, []⟩

/-- Concrete data: the block carrying `c9U`. -/
def c9B2 : Block := ⟨0, [102], [c9U], [101], 0, 1, 22, []⟩

/-- Concrete data: the block carrying `c9V`, the newest block. -/
def c9B3 : Block := ⟨0, [103], [c9V], [102], 0, 2, 22, []⟩

/-- Concrete data: the store holding the chain without the newest block. -/
def c9Store : List (Bytes × Block) := [([101], c9B1), ([102], c9B2)]

/-- Concrete data: the store holding the chain including the newest block. -/
def c9StoreFull : List (Bytes × Block) := [([101], c9B1), ([102], c9B2), ([103], c9B3)]

/-- Concrete data: the previous transaction for the signed-id scenario. -/
def c5Prev : Transaction := ⟨[170], [⟨[], -1, [], [9]⟩], [⟨10, [5, 6]⟩]⟩

/-- Concrete data: the single input of the signed-id scenario. -/
def c5Inputs : List TXInput := [⟨[170], 0, [], [1, 2, 3, 4]⟩]

/-- Concrete data: the single output of the signed-id scenario. -/
def c5Outputs : List TXOutput := [⟨10, [5, 6]⟩]

/-- Concrete data: the resolved previous transactions of the signed-id
scenario. -/
def c5PrevMap : List (Bytes × Transaction) := [([170], c5Prev)]

/-- Concrete data: the transaction built and signed by the embedded
`NewTransaction` tail, with the ECDSA signer returning `(1, 2)`. -/
def c5SignedTx : Transaction :=
  (NewTransactionCore c5Inputs c5Outputs c5PrevMap (fun _ _ => (1, 2))).getD ⟨[], [], []⟩

/-- Concrete data: a transaction-free genesis block for the mempool
scenario. -/
def c8G : Block := ⟨0, [1], [], [], 0, 0, 16, []⟩

/-- Concrete data: a single-block node state for the mempool scenario. -/
def c8S : NodeState := ⟨[([1], c8G)], [1], [], [], 0⟩

/-- Concrete data: a transaction whose input references a transaction id
absent from the chain, so chain-level verification returns `false`. -/
def c8Tx : Transaction := ⟨[9], [⟨[8], 0, [], []⟩], []⟩

/-- Concrete data: the reindex snapshot of the chain without `c9B3`. -/
def c9Pre : List (Bytes × List TXOutput) := [([2], [⟨10, [3]⟩]), ([1], [⟨20, [2]⟩])]

/-- Concrete data: the index produced by the incremental update for `c9B3`
applied to `c9Pre`. -/
def c9Upd : List (Bytes × List TXOutput) :=
  [([2], [⟨10, [3]⟩]), ([1], [⟨20, [2]⟩]), ([3], [⟨20, [4]⟩])]

/-- Concrete data: the reindex snapshot of the chain including `c9B3`. -/
def c9Full : List (Bytes × List TXOutput) := [([3], [⟨20, [4]⟩]), ([2], [⟨10, [3]⟩])]

/-- Concrete data: a difficulty-zero block for the proof-of-work witness. -/
def c1B : Block := ⟨0, [2], [], [1], 0, 1, 0, []⟩

/-- Concrete data: a candidate block at the next height with difficulty
zero (target `2^256`), so its proof-of-work validates. -/
def c2B : Block := ⟨0, [2], [], [1], 0, 1, 0, []⟩

/-- Concrete data: a block of height 5 not yet stored, for the store-level
`AddBlock` witness. -/
def c10NewB : Block := ⟨0, [2], [], [1], 0, 5, 22, []⟩

/-- Concrete data: the state `AddBlock` produces from `c8S` and `c10NewB`. -/
def c10S1 : NodeState := ⟨[([1], c8G), ([2], c10NewB)], [2], [], [], 0⟩

/-- Concrete data: a seven-character base-58 address (`zzzzzzz`) whose
decoding is six bytes long. -/
def c3Addr : Bytes := [122, 122, 122, 122, 122, 122, 122]

/-- The NIST P-256 field prime (`elliptic.P256().Params().P`). -/
def p256P : Nat :=
  0xffffffff00000001000000000000000000000000ffffffffffffffffffffffff

/-- The NIST P-256 group order (`elliptic.P256().Params().N`). -/
def p256N : Nat :=
  0xffffffff00000000ffffffffffffffffbce6faada7179e84f3b9cac2fc632551

/-- The P-256 curve coefficient `a = p - 3`. -/
def p256A : Nat := p256P - 3

/-- The x coordinate of the P-256 base point. -/
def p256Gx : Nat :=
  0x6b17d1f2e12c4247f8bce6e563a440f277037d812deb33a0f4a13945d898c296

/-- The y coordinate of the P-256 base point. -/
def p256Gy : Nat :=
  0x4fe342e2fe1a7f9b8ee7eb4a7c0f9e162bce33576b315ececbb6406837bf51f5

/-- Binary modular exponentiation, fuel-recursive so the kernel can
evaluate it. -/
def powModAux : Nat → Nat → Nat → Nat → Nat
  | 0, _, _, _ => 1
  | f+1, x, e, m =>
    if e = 0 then 1 % m
    else
      let r := powModAux f (x * x % m) (e / 2) m
      if e % 2 = 1 then r * x % m else r

/-- Modular exponentiation `x ^ e mod m` (for `m > 1`). -/
def powMod (x e m : Nat) : Nat := powModAux 257 (x % m) e m

/-- Inverse modulo the P-256 prime, by Fermat's little theorem. -/
def invModP (z : Nat) : Nat := powMod z (p256P - 2) p256P

/-- A P-256 point in Jacobian coordinates `(X, Y, Z)` with `Z = 0` the
point at infinity — the representation Go's `crypto/elliptic` generic
curve code uses. -/
abbrev P256Jac := Nat × Nat × Nat

/-- Point doubling in Jacobian coordinates, the `doubleJacobian` formulas
of Go's `crypto/elliptic` (dbl-2001-b for `a = -3`); all coordinates kept
reduced mod the prime. -/
def jDouble (P : P256Jac) : P256Jac :=
  let x := P.1
  let y := P.2.1
  let z := P.2.2
  let delta := z * z % p256P
  let gamma := y * y % p256P
  let alpha := 3 * ((x + p256P - delta) % p256P) % p256P * ((x + delta) % p256P) % p256P
  let beta := x * gamma % p256P
  let x3 := (alpha * alpha % p256P + p256P - 8 * beta % p256P) % p256P
  let z3 := ((y + z) * (y + z) % p256P + 2 * p256P - gamma - delta) % p256P
  let y3 := (alpha * ((4 * beta % p256P + p256P - x3) % p256P) % p256P +
    p256P - 8 * (gamma * gamma % p256P) % p256P) % p256P
  (x3, y3, z3)

/-- Point addition in Jacobian coordinates, the `addJacobian` formulas of
Go's `crypto/elliptic` (add-2007-bl); equal points fall through to
doubling, an inverse pair yields `Z = 0`. -/
def jAdd (P Q : P256Jac) : P256Jac :=
  let z1 := P.2.2
  let z2 := Q.2.2
  if z1 = 0 then Q
  else if z2 = 0 then P
  else
    let z1z1 := z1 * z1 % p256P
    let z2z2 := z2 * z2 % p256P
    let u1 := P.1 * z2z2 % p256P
    let u2 := Q.1 * z1z1 % p256P
    let s1 := P.2.1 * z2 % p256P * z2z2 % p256P
    let s2 := Q.2.1 * z1 % p256P * z1z1 % p256P
    let h := (u2 + p256P - u1) % p256P
    let r := 2 * ((s2 + p256P - s1) % p256P) % p256P
    if h = 0 ∧ r = 0 then jDouble P
    else
      let i := 4 * (h * h % p256P) % p256P
      let j := h * i % p256P
      let v := u1 * i % p256P
      let x3 := (r * r % p256P + 3 * p256P - j - 2 * v) % p256P
      let y3 := (r * ((v + p256P - x3) % p256P) % p256P +
        2 * p256P - 2 * (s1 * j % p256P)) % p256P
      let z3 := ((z1 + z2) * (z1 + z2) % p256P + 2 * p256P - z1z1 - z2z2) % p256P * h % p256P
      (x3, y3, z3)

/-- Double-and-add scalar multiplication in Jacobian coordinates,
fuel-recursive (257 iterations cover any scalar below `2^257`). -/
def jMulAux : Nat → Nat → P256Jac → P256Jac → P256Jac
  | 0, _, _, acc => acc
  | f+1, k, base, acc =>
    if k = 0 then acc
    else jMulAux f (k / 2) (jDouble base) (if k % 2 = 1 then jAdd acc base else acc)

/-- Scalar multiplication (`elliptic.Curve.ScalarMult`). -/
def jMul (k : Nat) (P : P256Jac) : P256Jac := jMulAux 257 k P (0, 0, 0)

/-- Back to affine coordinates (`affineFromJacobian`): `none` for the
point at infinity. -/
def jAffine (P : P256Jac) : Option (Nat × Nat) :=
  if P.2.2 = 0 then none
  else
    let zinv := invModP P.2.2
    let zinv2 := zinv * zinv % p256P
    some (P.1 * zinv2 % p256P, P.2.1 * zinv2 % p256P * zinv % p256P)

/-- Embeds `crypto/ecdsa.Verify` over P-256: reject `r`, `s` outside `[1, N-1]`;
read the digest as a big-endian integer (`hashToInt`, no reduction for a
32-byte digest); accept when the x coordinate of `u1·G + u2·Q`, reduced
mod `N`, equals `r`. -/
def ecdsaP256Verify (x y : Nat) (digest : Bytes) (r s : Nat) : Bool :=
  if r = 0 || p256N ≤ r || s = 0 || p256N ≤ s then false
  else
    let e := bytesToNat digest
    let w := powMod s (p256N - 2) p256N
    let u1 := e * w % p256N
    let u2 := r * w % p256N
    match jAffine (jAdd (jMul u1 (p256Gx, p256Gy, 1)) (jMul u2 (x, y, 1))) with
    | none => false
    | some (xr, _) => xr % p256N = r

/-- Concrete data: the x coordinate of the test public key `d·G` for
`d = 0x3a1f2c4d5e6f708192a3b4c5d6e7f8091a2b3c4d5e6f708192a3b4c5d6e7f809`. -/
def c6X : Nat := 0xab4b5694bd3d240dc5fc454446fa23e9dea95e0391177eb9fef64bd3f56f1bac

/-- Concrete data: the y coordinate of the test public key. -/
def c6Y : Nat := 0xa5ac8f4a31aea5ba4306a4499bbf0795d0ff50caa5b921c1e5e3c4880a0150a0

/-- Concrete data: the wallet-format public key, the unpadded
concatenation `X.Bytes() ++ Y.Bytes()` (`newKeyPair` in wallet.go). -/
def c6PubKey : Bytes := beBytes 32 c6X ++ beBytes 32 c6Y

/-- Concrete data: the previous transaction whose output 0 the test
transaction spends. -/
def c6Prev : Transaction := ⟨[170], [⟨[], -1, [], [9]⟩], [⟨10, [1, 2]⟩]⟩

/-- Concrete data: the single input of the test transaction. -/
def c6Inputs : List TXInput := [⟨[170], 0, [], c6PubKey⟩]

/-- Concrete data: the single output of the test transaction. -/
def c6Outputs : List TXOutput := [⟨7, [3, 4]⟩]

/-- Concrete data: the resolved previous transactions. -/
def c6PrevMap : List (Bytes × Transaction) := [([170], c6Prev)]

/-- Concrete data: an ECDSA signature of the test transaction's input-0
digest under the test key (nonce 1001) whose `r` and `s` both have 32-byte
minimal encodings. -/
def c6GoodR : Nat := 0xccf7a87be5ca16eac008923dab1e28b8123105aa3ccd9918705222ca5d3a7cc6

/-- Concrete data: the `s` half of the well-aligned signature. -/
def c6GoodS : Nat := 0x02d479811f518650a927b43215900df458c6b35d46aa411988a82c94f6de2fcf

/-- Concrete data: an equally valid ECDSA signature of the same digest
under the same key (nonce 1023) whose `s` has a 31-byte minimal encoding,
so the 63-byte concatenation splits at byte 31 and mis-parses. -/
def c6BadR : Nat := 0x93c77b969fe04782bb59e756f48a83998232b7042629a647d4c1392ca272ea2a

/-- Concrete data: the `s` half of the mis-aligned signature. -/
def c6BadS : Nat := 0x008b1f6aff752c17dea6d1716f15d48f4ac7865cb8076a3ed863d5806da6d6be

/-- Concrete data: the test transaction signed with the well-aligned
signature. -/
def c6GoodTx : Transaction :=
  (NewTransactionCore c6Inputs c6Outputs c6PrevMap (fun _ _ => (c6GoodR, c6GoodS))).getD
    ⟨[], [], []⟩

/-- Concrete data: the test transaction signed with the mis-aligned
signature. -/
def c6BadTx : Transaction :=
  (NewTransactionCore c6Inputs c6Outputs c6PrevMap (fun _ _ => (c6BadR, c6BadS))).getD
    ⟨[], [], []⟩

/-- Concrete data: `c6GoodTx` with one byte of its output's value flipped
(value 7 becomes 263, changing exactly one byte of the 8-byte value
field). -/
def c6TamperTx : Transaction :=
  { c6GoodTx with Outputs := [⟨263, [3, 4]⟩] }

/-- Concrete data: the digest both signing and verification compute for
input 0 of the test transaction. -/
def c6Digest : Bytes :=
  digestFor ⟨Transaction.Hash ⟨[], c6Inputs, c6Outputs⟩, c6Inputs, c6Outputs⟩ 0 [1, 2]

/-- A `put` key reads back as the written value. -/
theorem getKV_putKV_self {α : Type} (k : Bytes) (v : α) (db : List (Bytes × α)) :
    getKV k (putKV k v db) = some v := by
  induction db with
  | nil => simp [putKV, getKV]
  | cons p rest ih =>
    obtain ⟨k0, v0⟩ := p
    by_cases h : k0 = k <;> simp [putKV, getKV, h, ih]

/-- A `put` leaves every other key unchanged. -/
theorem getKV_putKV_ne {α : Type} {k k1 : Bytes} (v : α) (db : List (Bytes × α))
    (hne : k1 ≠ k) : getKV k1 (putKV k v db) = getKV k1 db := by
  have hkk : ¬ (k = k1) := fun hh => hne hh.symm
  induction db with
  | nil => simp [putKV, getKV, hkk]
  | cons p rest ih =>
    obtain ⟨k0, v0⟩ := p
    by_cases h : k0 = k
    · simp [putKV, getKV, h, hkk]
    · simp [putKV, getKV, h, ih]

/-- Iterated integer halving of a non-negative value is division by a
power of two. -/
theorem halveLoop_cast (n k : Nat) :
    halveLoop (n : Int) k = ((n / 2 ^ k : Nat) : Int) := by
  induction k generalizing n with
  | zero => simp [halveLoop]
  | succ k ih =>
    show halveLoop (Int.tdiv (n : Int) 2) k = _
    rw [show Int.tdiv (n : Int) 2 = ((n / 2 : Nat) : Int) from rfl, ih]
    rw [Nat.div_div_eq_div_mul, pow_succ, Nat.mul_comm]

/-- C1.  For every block B, proof-of-work validation computes the digest
SHA256(B.prev_hash || B.merkle_root || be64(B.nonce) || be64(B.difficulty)
|| be64(B.timestamp)), using B's stored merkle_root field (not a
recomputation over B's transactions), and accepts B exactly when this
digest, read as a 256-bit big-endian unsigned integer, is strictly less
than 2^(256 - B.difficulty).  Stated for the validator the node runs on a
block, `NewProofWithDifficulty(B, B.Difficulty).Validate()`; the second
conjunct makes the independence from `B.Transactions` explicit. -/
theorem C1_pow_validation (B : Block) (_hd : B.Difficulty ≤ 256) :
    ((NewProofWithDifficulty B B.Difficulty).Validate =
      decide (bytesToNat (sha256 (B.PrevHash ++ B.MerkleRoot ++ toHex B.Nonce ++
        toHex B.Difficulty ++ toHex B.Timestamp)) < 2 ^ (256 - B.Difficulty).toNat)) ∧
    (∀ txs, (NewProofWithDifficulty { B with Transactions := txs } B.Difficulty).Validate =
      (NewProofWithDifficulty B B.Difficulty).Validate) := by
  constructor
  · by_cases h : B.Difficulty = 0 <;>
      simp [NewProofWithDifficulty, ProofOfWork.Validate, ProofOfWork.InitData, h]
  · intro txs
    by_cases h : B.Difficulty = 0 <;>
      simp [NewProofWithDifficulty, ProofOfWork.Validate, ProofOfWork.InitData, h]

/-- C1 witness: the validator equality at the concrete block `c1B`. -/
theorem C1_witness :
    c1B.Difficulty ≤ 256 ∧
    (((NewProofWithDifficulty c1B c1B.Difficulty).Validate =
      decide (bytesToNat (sha256 (c1B.PrevHash ++ c1B.MerkleRoot ++ toHex c1B.Nonce ++
        toHex c1B.Difficulty ++ toHex c1B.Timestamp)) < 2 ^ (256 - c1B.Difficulty).toNat)) ∧
    (∀ txs, (NewProofWithDifficulty { c1B with Transactions := txs } c1B.Difficulty).Validate =
      (NewProofWithDifficulty c1B c1B.Difficulty).Validate)) :=
  ⟨by decide, C1_pow_validation c1B (by decide)⟩

/-- C4.  For every height h ≥ 0, `GetBlockReward h` equals 50
integer-halved `h / 210000` times, clamped to 0 once the halved value
falls below 1; in particular it is 0 from height `7 * HalvingInterval`
on. -/
theorem C4_reward (h : Int) (hh : 0 ≤ h) :
    (GetBlockReward h =
      if (50 : Nat) / 2 ^ (h.toNat / 210000) < 1 then 0
      else ((50 / 2 ^ (h.toNat / 210000) : Nat) : Int)) ∧
    (7 * 210000 ≤ h → GetBlockReward h = 0) := by
  obtain ⟨n, rfl⟩ := Int.eq_ofNat_of_zero_le hh
  have main : GetBlockReward (n : Int) =
      if (50 : Nat) / 2 ^ (n / 210000) < 1 then 0
      else ((50 / 2 ^ (n / 210000) : Nat) : Int) := by
    unfold GetBlockReward
    rw [show Int.tdiv (n : Int) HalvingInterval = ((n / 210000 : Nat) : Int) from rfl]
    rw [show ((n / 210000 : Nat) : Int).toNat = n / 210000 from rfl]
    rw [show InitialSubsidy = ((50 : Nat) : Int) from rfl, halveLoop_cast]
    by_cases hz : 50 / 2 ^ (n / 210000) = 0
    · simp [hz]
    · rcases Nat.exists_eq_succ_of_ne_zero hz with ⟨m, hm⟩
      rw [hm]
      have h1 : ¬ (((m + 1 : Nat) : Int) < 1) := by push_cast; omega
      have h2 : ¬ ((m + 1 : Nat) < 1) := by omega
      simp [h1, h2]
  have htn : ((n : Int)).toNat = n := rfl
  refine ⟨by rw [htn]; exact main, ?_⟩
  intro h7
  have hn : 7 * 210000 ≤ n := by exact_mod_cast h7
  have hk : 7 ≤ n / 210000 := (Nat.le_div_iff_mul_le (by norm_num)).mpr hn
  have hlt : (50 : Nat) < 2 ^ (n / 210000) := by
    calc (50 : Nat) < 2 ^ 7 := by norm_num
      _ ≤ 2 ^ (n / 210000) := Nat.pow_le_pow_right (by norm_num) hk
  have hz : (50 : Nat) / 2 ^ (n / 210000) = 0 := Nat.div_eq_of_lt hlt
  rw [main, if_pos (by omega)]

/-- C4 witness: the reward formula at the first all-zero height. -/
theorem C4_witness :
    (0 : Int) ≤ 1470000 ∧
    ((GetBlockReward 1470000 =
      if (50 : Nat) / 2 ^ ((1470000 : Int).toNat / 210000) < 1 then 0
      else ((50 / 2 ^ ((1470000 : Int).toNat / 210000) : Nat) : Int)) ∧
    (7 * 210000 ≤ (1470000 : Int) → GetBlockReward 1470000 = 0)) :=
  ⟨by decide, C4_reward 1470000 (by decide)⟩

/-- C7 (amended).  The merkle construction pads the input (leaf) level by
duplicating its last element when its cardinality is odd, hashes each
element into a leaf `SHA256(element)` and each internal node as
`SHA256(left || right)`; consequently the root of a one-element list is
`SHA256(leaf || leaf)` over the duplicated leaf, not the leaf itself, and
a deeper level of odd cardinality is not re-padded: it makes the
construction panic (six leaves produce a three-node level, `none`). -/
theorem C7_merkle (a b c d : Bytes) :
    ((NewMerkleTree [a]).map MerkleNode.Data = some (sha256 (sha256 a ++ sha256 a))) ∧
    ((NewMerkleTree [a, b]).map MerkleNode.Data = some (sha256 (sha256 a ++ sha256 b))) ∧
    ((NewMerkleTree [a, b, c]).map MerkleNode.Data =
      some (sha256 (sha256 (sha256 a ++ sha256 b) ++ sha256 (sha256 c ++ sha256 c)))) ∧
    ((NewMerkleTree [a, b, c, d]).map MerkleNode.Data =
      some (sha256 (sha256 (sha256 a ++ sha256 b) ++ sha256 (sha256 c ++ sha256 d)))) ∧
    NewMerkleTree [a, b, c, d, a, b] = none := by
  refine ⟨?_, ?_, ?_, ?_, ?_⟩ <;>
    simp [NewMerkleTree, merklePasses, pairPass, NewMerkleNode, MerkleNode.Data]

/-- C7 counterexample: the root of the one-element list `[[7]]` is the
hash of the duplicated leaf pair and differs from the leaf hash
`sha256 [7]` the claim asserts. -/
theorem C7_counterexample :
    (NewMerkleTree [[7]]).map MerkleNode.Data = some (sha256 (sha256 [7] ++ sha256 [7])) ∧
    sha256 (sha256 [7] ++ sha256 [7]) ≠ sha256 [7] :=
  ⟨by decide, by decide⟩

/-- C9.  Evaluation of the incremental UTXO update against the rebuilt
index at the failing chain: `c9T` has two outputs, the chain without the
newest block has already spent output 0, so the pre-`c9B3` snapshot stores
only output 1 (at stored position 0); `c9B3` spends output 1, but `Update`
filters the stored list by position, keeps the (spent) output, and leaves
key `[1]` in the index, while the full rebuild removes it. -/
theorem C9_update_vs_reindex :
    reindexOf c9Store [102] = some c9Pre ∧
    updateUTXO c9Pre c9B3 = some c9Upd ∧
    reindexOf c9StoreFull [103] = some c9Full ∧
    getKV [1] c9Upd = some [⟨20, [2]⟩] ∧
    getKV [1] c9Full = none :=
  ⟨by decide, by decide, by decide, by decide, by decide⟩

/-- Inversion for a successful `Option` bind. -/
theorem bindEqSome {α β : Type} {x : Option α} {f : α → Option β} {b : β}
    (h : x >>= f = some b) : ∃ a, x = some a ∧ f a = some b := by
  cases x with
  | none => simp at h
  | some a => exact ⟨a, rfl, by simpa using h⟩

/-- Every transaction the miner's mempool scan keeps passed chain-level
verification. -/
theorem collectValid_mem (ev : EcdsaVerify) (s : NodeState)
    (pool : List (Bytes × Transaction)) (sel : List Transaction)
    (hsel : collectValid ev s pool = some sel) :
    ∀ t ∈ sel, chainVerifyTransaction ev s t = some true := by
  induction pool generalizing sel with
  | nil =>
    simp only [collectValid, Option.some.injEq] at hsel
    subst hsel
    simp
  | cons p rest ih =>
    obtain ⟨k0, tx0⟩ := p
    simp only [collectValid] at hsel
    obtain ⟨ok, h1, hsel⟩ := bindEqSome hsel
    obtain ⟨r, h2, h3⟩ := bindEqSome hsel
    obtain rfl : (if ok then tx0 :: r else r) = sel := Option.some.inj h3
    intro t ht
    cases ok with
    | false => exact ih r h2 t (by simpa using ht)
    | true =>
      rcases (by simpa using ht : t = tx0 ∨ t ∈ r) with rfl | hmem
      · exact h1
      · exact ih r h2 t hmem

/-- A transaction built by `CoinbaseTX` is a coinbase. -/
theorem coinbaseTX_isCoinbase (toAddr data randData : Bytes) (height : Int)
    (tx : Transaction) (h : CoinbaseTX toAddr data randData height = some tx) :
    tx.IsCoinbase = true := by
  simp only [CoinbaseTX] at h
  obtain ⟨txout, h1, h2⟩ := bindEqSome h
  obtain rfl := Option.some.inj h2
  simp [Transaction.IsCoinbase]

/-- C8 (amended).  A transaction received over the network is inserted
into the mempool unconditionally — no signature or reference validation
happens on ingress; the validation the spec describes happens when the
miner selects transactions: every entry of the mined working set is either
the freshly built coinbase or passed full chain-level verification. -/
theorem C8_mempool_validation (s : NodeState) (tx : Transaction) :
    ((handleTx s tx).Mempool = putKV tx.ID tx s.Mempool) ∧
    (∀ ev minerAddress randData sel,
      mineTxsSelect ev s minerAddress randData = some sel →
      ∀ t ∈ sel, t.IsCoinbase = true ∨ chainVerifyTransaction ev s t = some true) := by
  refine ⟨rfl, ?_⟩
  intro ev minerAddress randData sel hsel t ht
  simp only [mineTxsSelect] at hsel
  obtain ⟨valid, hv, hsel⟩ := bindEqSome hsel
  obtain ⟨tip, htip, hsel⟩ := bindEqSome hsel
  obtain ⟨cb, hcb, heq⟩ := bindEqSome hsel
  obtain rfl := Option.some.inj heq
  rcases List.mem_append.mp ht with hmem | hmem
  · exact Or.inr (collectValid_mem ev s s.Mempool valid hv t hmem)
  · obtain rfl : t = cb := by simpa using hmem
    exact Or.inl (coinbaseTX_isCoinbase minerAddress [] randData (tip.Height + 1) t hcb)

/-- C8 witness: the insertion and miner-selection properties at the
concrete state `c8S` and transaction `c8Tx`. -/
theorem C8_witness :
    ((handleTx c8S c8Tx).Mempool = putKV c8Tx.ID c8Tx c8S.Mempool) ∧
    (∀ ev minerAddress randData sel,
      mineTxsSelect ev c8S minerAddress randData = some sel →
      ∀ t ∈ sel, t.IsCoinbase = true ∨ chainVerifyTransaction ev c8S t = some true) :=
  C8_mempool_validation c8S c8Tx

/-- C8 counterexample: `c8Tx` fails chain-level verification (its input
references a transaction absent from the chain) under any ECDSA primitive,
yet `handleTx` inserts it into the mempool. -/
theorem C8_counterexample :
    chainVerifyTransaction (fun _ _ _ _ _ => true) c8S c8Tx = some false ∧
    getKV c8Tx.ID (handleTx c8S c8Tx).Mempool = some c8Tx :=
  ⟨by decide, by decide⟩

/-- C5 (amended).  The id a transaction carries is the SHA-256 of the
serialization of its *pre-signing* form with the id cleared: `Sign`
rewrites only input signatures and never the id, so the transaction
returned by the `NewTransaction` pipeline keeps the hash of the unsigned
construction; a coinbase (whose inputs are never signed) satisfies the
claim's equation exactly. -/
theorem C5_id_presign :
    (∀ inputs outputs prevTXs sigOf t,
      NewTransactionCore inputs outputs prevTXs sigOf = some t →
      t.ID = Transaction.Hash ⟨[], inputs, outputs⟩) ∧
    (∀ toAddr data randData height tx,
      CoinbaseTX toAddr data randData height = some tx → tx.ID = tx.Hash) := by
  constructor
  · intro inputs outputs prevTXs sigOf t ht
    have ht2 : Transaction.SignGo
        ⟨Transaction.Hash ⟨[], inputs, outputs⟩, inputs, outputs⟩ prevTXs sigOf = some t := ht
    unfold Transaction.SignGo at ht2
    split at ht2
    · obtain rfl := Option.some.inj ht2
      rfl
    · obtain ⟨u, hu, ht2⟩ := bindEqSome ht2
      obtain ⟨inputs1, hi, hsome⟩ := bindEqSome ht2
      obtain rfl := Option.some.inj hsome
      rfl
  · intro toAddr data randData height tx h
    simp only [CoinbaseTX] at h
    obtain ⟨txout, h1, h2⟩ := bindEqSome h
    obtain rfl := Option.some.inj h2
    simp [Transaction.Hash]

/-- C5 witness: the signed transaction of the concrete scenario carries
the hash of its unsigned form. -/
theorem C5_witness :
    NewTransactionCore c5Inputs c5Outputs c5PrevMap (fun _ _ => (1, 2)) = some c5SignedTx ∧
    c5SignedTx.ID = Transaction.Hash ⟨[], c5Inputs, c5Outputs⟩ :=
  ⟨by decide,
   C5_id_presign.1 c5Inputs c5Outputs c5PrevMap (fun _ _ => (1, 2)) c5SignedTx (by decide)⟩

/-- C5 counterexample: after its single input is signed, the stored id of
the concrete transaction no longer equals the SHA-256 of the serialization
of the same (signed) transaction with the id cleared. -/
theorem C5_counterexample :
    NewTransactionCore c5Inputs c5Outputs c5PrevMap (fun _ _ => (1, 2)) = some c5SignedTx ∧
    c5SignedTx.ID ≠ c5SignedTx.Hash :=
  ⟨by decide, by decide⟩

/-- C2.  On receiving a candidate block over the network with the tip
block resolved, the handler leaves the state unchanged unless the block
sits at exactly the next height and its proof-of-work validates at the
block's stored difficulty; when both hold (and the rebuild of the UTXO
index over the extended chain succeeds), the block is persisted under its
hash, the tip moves to it, the UTXO index equals the full rebuild, and a
non-blocking interrupt token goes to the miner. -/
theorem C2_network_accept (s : NodeState) (B tip : Block)
    (htip : getKV s.LastHash s.Store = some tip) :
    (¬ (B.Height = tip.Height + 1 ∧
        (NewProofWithDifficulty B B.Difficulty).Validate = true) →
      serverAddBlock s B = some s) ∧
    (B.Height = tip.Height + 1 →
      (NewProofWithDifficulty B B.Difficulty).Validate = true →
      ∀ u, reindexOf (putKV B.Hash B s.Store) B.Hash = some u →
        serverAddBlock s B =
          some { Store := putKV B.Hash B s.Store, LastHash := B.Hash, UTXO := u,
                 Mempool := s.Mempool, Interrupt := nbSend s.Interrupt }) := by
  constructor
  · intro hn
    by_cases h1 : B.Height = tip.Height + 1
    · have h2 : ¬ ((NewProofWithDifficulty B B.Difficulty).Validate = true) :=
        fun hv => hn ⟨h1, hv⟩
      simp [serverAddBlock, htip, h1, h2]
    · simp [serverAddBlock, htip, h1]
  · intro h1 h2 u hu
    simp [serverAddBlock, htip, h1, h2, hu]

/-- C2 witness: the acceptance dichotomy at the concrete single-block
state `c8S` and next-height candidate `c2B`. -/
theorem C2_witness :
    getKV c8S.LastHash c8S.Store = some c8G ∧
    ((¬ (c2B.Height = c8G.Height + 1 ∧
        (NewProofWithDifficulty c2B c2B.Difficulty).Validate = true) →
      serverAddBlock c8S c2B = some c8S) ∧
    (c2B.Height = c8G.Height + 1 →
      (NewProofWithDifficulty c2B c2B.Difficulty).Validate = true →
      ∀ u, reindexOf (putKV c2B.Hash c2B c8S.Store) c2B.Hash = some u →
        serverAddBlock c8S c2B =
          some { Store := putKV c2B.Hash c2B c8S.Store, LastHash := c2B.Hash, UTXO := u,
                 Mempool := c8S.Mempool, Interrupt := nbSend c8S.Interrupt })) :=
  ⟨by decide, C2_network_accept c8S c2B c8G (by decide)⟩

/-- C3.  For a recipient address decoding to a version byte, a public-key
hash and a 4-byte checksum, `CoinbaseTX` returns a transaction with
exactly one input — the coinbase sentinel (empty previous id, index `-1`,
no signature, the coinbase data) — and exactly one output whose value is
`GetBlockReward height`, locked to the recipient's public-key hash; the
output values of the coinbase therefore sum to the reward. -/
theorem C3_coinbase (toAddr data randData : Bytes) (height : Int) (v : Nat)
    (pkh cks : Bytes) (hdec : Base58Decode toAddr = v :: (pkh ++ cks))
    (hcks : cks.length = 4) :
    ∃ tx, CoinbaseTX toAddr data randData height = some tx ∧
      tx.Inputs = [⟨[], -1, [], if data = [] then randData else data⟩] ∧
      tx.Outputs = [⟨GetBlockReward height, pkh⟩] ∧
      (tx.Outputs.map TXOutput.Value).sum = GetBlockReward height := by
  have hslice : goSlice (Base58Decode toAddr) 1 ((Base58Decode toAddr).length - 4) =
      some pkh := by
    rw [hdec]
    unfold goSlice
    have hl : (v :: (pkh ++ cks)).length = pkh.length + 5 := by
      simp only [List.length_cons, List.length_append, hcks]
    rw [hl]
    have h5 : pkh.length + 5 - 4 = pkh.length + 1 := by omega
    rw [h5, if_pos (by constructor <;> omega)]
    rw [List.take_succ_cons]
    rw [show List.drop 1 (v :: List.take pkh.length (pkh ++ cks)) =
        List.take pkh.length (pkh ++ cks) from rfl]
    rw [List.take_left]
  have hout : NewTXOutput (GetBlockReward height) toAddr =
      some ⟨GetBlockReward height, pkh⟩ := by
    simp only [NewTXOutput]
    rw [hslice]
    rfl
  have hct : CoinbaseTX toAddr data randData height =
      some { ID := Transaction.Hash ⟨[], [⟨[], -1, [], if data = [] then randData else data⟩],
                    [⟨GetBlockReward height, pkh⟩]⟩,
             Inputs := [⟨[], -1, [], if data = [] then randData else data⟩],
             Outputs := [⟨GetBlockReward height, pkh⟩] } := by
    simp only [CoinbaseTX]
    rw [hout]
    rfl
  exact ⟨_, hct, rfl, rfl, by simp⟩

/-- C3 witness: the coinbase shape at the concrete address `c3Addr`,
data `[3]` and height `0`. -/
theorem C3_witness :
    (Base58Decode c3Addr = 2 :: (([2] : Bytes) ++ [22, 28, 170, 127]) ∧
      ([22, 28, 170, 127] : Bytes).length = 4) ∧
    (∃ tx, CoinbaseTX c3Addr [3] [] 0 = some tx ∧
      tx.Inputs = [⟨[], -1, [], if ([3] : Bytes) = [] then [] else [3]⟩] ∧
      tx.Outputs = [⟨GetBlockReward 0, [2]⟩] ∧
      (tx.Outputs.map TXOutput.Value).sum = GetBlockReward 0) :=
  ⟨⟨by decide, by decide⟩,
   C3_coinbase c3Addr [3] [] 0 2 [2] [22, 28, 170, 127] (by decide) (by decide)⟩

/-- C10.  Every operation that writes the tip pointer replaces it with the
hash of a stored block of strictly greater height: local mining extends
the tip by exactly one, the store-level `AddBlock` moves the tip only on a
strictly greater height, and the network accept path requires exactly the
next height — so the locally observed tip height never decreases. -/
theorem C10_tip_monotone :
    (∀ ev s txs outcome s1 nb h,
      MineBlockWithInterrupt ev s txs outcome = some (s1, some nb) →
      tipHeight s = some h → tipHeight s1 = some (h + 1) ∧ h < h + 1) ∧
    (∀ s block s1 h, AddBlockGo s block = some s1 → tipHeight s = some h →
      (s1.LastHash = s.LastHash ∧ tipHeight s1 = some h) ∨
      (h < block.Height ∧ tipHeight s1 = some block.Height)) ∧
    (∀ s block s1 h, serverAddBlock s block = some s1 → tipHeight s = some h →
      (s1.LastHash = s.LastHash ∧ tipHeight s1 = some h) ∨
      (h < block.Height ∧ tipHeight s1 = some block.Height)) := by
  refine ⟨?_, ?_, ?_⟩
  · intro ev s txs outcome s1 nb h hm hh
    obtain ⟨tip, htip, hth⟩ : ∃ tip, getKV s.LastHash s.Store = some tip ∧ tip.Height = h := by
      unfold tipHeight at hh
      cases hg : getKV s.LastHash s.Store with
      | none => rw [hg] at hh; simp at hh
      | some tip => rw [hg] at hh; exact ⟨tip, rfl, by simpa using hh⟩
    simp only [MineBlockWithInterrupt] at hm
    obtain ⟨u0, hu0, hm⟩ := bindEqSome hm
    obtain ⟨lastB, hlb, hm⟩ := bindEqSome hm
    rw [htip] at hlb
    obtain rfl : lastB = tip := (Option.some.inj hlb).symm
    obtain ⟨nb1, hnb1, hm⟩ := bindEqSome hm
    simp only [CreateBlockWithInterrupt] at hnb1
    obtain ⟨root, hroot, hnb1⟩ := bindEqSome hnb1
    cases outcome with
    | none =>
      obtain rfl := Option.some.inj hnb1
      simp at hm
    | some triple =>
      obtain ⟨nonce, hash, ts⟩ := triple
      obtain rfl := Option.some.inj hnb1
      simp only [Option.some.injEq, Prod.mk.injEq] at hm
      obtain ⟨rfl, rfl⟩ := hm
      refine ⟨?_, by omega⟩
      show (getKV _ (putKV _ _ s.Store)).map Block.Height = _
      rw [getKV_putKV_self]
      simp [hth]
  · intro s block s1 h ha hh
    obtain ⟨tip, htip, hth⟩ : ∃ tip, getKV s.LastHash s.Store = some tip ∧ tip.Height = h := by
      unfold tipHeight at hh
      cases hg : getKV s.LastHash s.Store with
      | none => rw [hg] at hh; simp at hh
      | some tip => rw [hg] at hh; exact ⟨tip, rfl, by simpa using hh⟩
    simp only [AddBlockGo] at ha
    by_cases hex : (getKV block.Hash s.Store).isSome
    · rw [if_pos hex] at ha
      obtain rfl := Option.some.inj ha
      exact Or.inl ⟨rfl, hh⟩
    · rw [if_neg hex] at ha
      have hneq : s.LastHash ≠ block.Hash := by
        intro e
        rw [← e, htip] at hex
        simp at hex
      have hsame : getKV s.LastHash (putKV block.Hash block s.Store) =
          getKV s.LastHash s.Store := getKV_putKV_ne block s.Store hneq
      obtain ⟨lastB, hlb, ha⟩ := bindEqSome ha
      rw [hsame, htip] at hlb
      obtain rfl : tip = lastB := Option.some.inj hlb
      by_cases hlt : tip.Height < block.Height
      · rw [if_pos hlt] at ha
        obtain rfl := Option.some.inj ha
        refine Or.inr ⟨by omega, ?_⟩
        show (getKV block.Hash (putKV block.Hash block s.Store)).map Block.Height = _
        rw [getKV_putKV_self]
        rfl
      · rw [if_neg hlt] at ha
        obtain rfl := Option.some.inj ha
        refine Or.inl ⟨rfl, ?_⟩
        show (getKV s.LastHash (putKV block.Hash block s.Store)).map Block.Height = some h
        rw [hsame, htip]
        simp [hth]
  · intro s block s1 h hs hh
    obtain ⟨tip, htip, hth⟩ : ∃ tip, getKV s.LastHash s.Store = some tip ∧ tip.Height = h := by
      unfold tipHeight at hh
      cases hg : getKV s.LastHash s.Store with
      | none => rw [hg] at hh; simp at hh
      | some tip => rw [hg] at hh; exact ⟨tip, rfl, by simpa using hh⟩
    simp only [serverAddBlock] at hs
    obtain ⟨tip1, htip1, hs⟩ := bindEqSome hs
    rw [htip] at htip1
    obtain rfl : tip = tip1 := Option.some.inj htip1
    by_cases h1 : block.Height = tip.Height + 1
    · rw [if_pos h1] at hs
      by_cases h2 : (NewProofWithDifficulty block block.Difficulty).Validate
      · rw [if_pos h2] at hs
        obtain ⟨u, hu, hs⟩ := bindEqSome hs
        obtain rfl := Option.some.inj hs
        refine Or.inr ⟨by omega, ?_⟩
        show (getKV block.Hash (putKV block.Hash block s.Store)).map Block.Height = _
        rw [getKV_putKV_self]
        rfl
      · rw [if_neg h2] at hs
        obtain rfl := Option.some.inj hs
        exact Or.inl ⟨rfl, hh⟩
    · rw [if_neg h1] at hs
      obtain rfl := Option.some.inj hs
      exact Or.inl ⟨rfl, hh⟩

/-- C10 witness: the store-level `AddBlock` at the concrete single-block
state moves the tip to the strictly higher block `c10NewB`. -/
theorem C10_witness :
    AddBlockGo c8S c10NewB = some c10S1 ∧ tipHeight c8S = some 0 ∧
    ((c10S1.LastHash = c8S.LastHash ∧ tipHeight c10S1 = some 0) ∨
     ((0 : Int) < c10NewB.Height ∧ tipHeight c10S1 = some c10NewB.Height)) :=
  ⟨by decide, by decide, C10_tip_monotone.2.1 c8S c10NewB c10S1 0 (by decide) (by decide)⟩

/-- The minimal big-endian encoding folds back to its value (fuel
version). -/
theorem bytesToNat_natBytesAux (fuel : Nat) :
    ∀ n, n ≤ fuel → bytesToNat (natBytesAux fuel n) = n := by
  induction fuel with
  | zero =>
    intro n hn
    obtain rfl : n = 0 := Nat.le_zero.mp hn
    rfl
  | succ f ih =>
    intro n hn
    by_cases h0 : n = 0
    · subst h0
      simp [natBytesAux, bytesToNat]
    · have hstep : natBytesAux (f + 1) n = natBytesAux f (n / 256) ++ [n % 256] := by
        simp [natBytesAux, h0]
      have hdiv : n / 256 ≤ f := by
        have : n / 256 < n := Nat.div_lt_self (Nat.pos_of_ne_zero h0) (by norm_num)
        omega
      have happ : bytesToNat (natBytesAux f (n / 256) ++ [n % 256]) =
          bytesToNat (natBytesAux f (n / 256)) * 256 + n % 256 := by
        simp [bytesToNat, List.foldl_append]
      rw [hstep, happ, ih (n / 256) hdiv]
      omega

/-- The minimal big-endian encoding folds back to its value. -/
theorem bytesToNat_natBytes (n : Nat) : bytesToNat (natBytes n) = n :=
  bytesToNat_natBytesAux n n le_rfl

/-- The signing loop stores, for each input, the unpadded concatenation
of the minimal big-endian encodings of the signature pair the signer
returned for that input's digest. -/
theorem signLoop_format (tx : Transaction) (prevTXs : List (Bytes × Transaction))
    (sigOf : Nat → Bytes → Nat × Nat) :
    ∀ inputs idx out, signLoop tx prevTXs sigOf idx inputs = some out →
      out.length = inputs.length ∧
      ∀ j, j < out.length → ∃ digest,
        (out.getD j ⟨[], 0, [], []⟩).Signature =
          natBytes (sigOf (idx + j) digest).1 ++ natBytes (sigOf (idx + j) digest).2 := by
  intro inputs
  induction inputs with
  | nil =>
    intro idx out h
    simp only [signLoop, Option.some.injEq] at h
    subst h
    exact ⟨rfl, by intro j hj; simp at hj⟩
  | cons i rest ih =>
    intro idx out h
    simp only [signLoop] at h
    obtain ⟨prevTX, hp, h⟩ := bindEqSome h
    obtain ⟨o, ho, h⟩ := bindEqSome h
    obtain ⟨rest1, hr, h⟩ := bindEqSome h
    obtain rfl := (Option.some.inj h).symm
    obtain ⟨hlen, hjs⟩ := ih (idx + 1) rest1 hr
    refine ⟨by simp [hlen], ?_⟩
    intro j hj
    cases j with
    | zero => exact ⟨digestFor tx idx o.PubKeyHash, rfl⟩
    | succ j =>
      have hj2 : j < rest1.length := by simpa using hj
      obtain ⟨digest, hd⟩ := hjs j hj2
      refine ⟨digest, ?_⟩
      have harith : idx + 1 + j = idx + (j + 1) := by omega
      rw [harith] at hd
      simpa [List.getD] using hd

/-- C6 (amended).  Signatures are the raw *unpadded* concatenation of the
minimal big-endian encodings of `r` and `s` (`r.Bytes() ++ s.Bytes()`, not
32 bytes each, zero-padded left); the verifier splits the stored signature
at half its length, which recovers `(r, s)` exactly when the two minimal
encodings have equal length.  On a concrete P-256 keypair with an
equal-length signature the signed transaction verifies, and flipping a
byte of its output's value makes verification fail. -/
theorem C6_sig_roundtrip :
    (∀ tx prevTXs sigOf t, Transaction.SignGo tx prevTXs sigOf = some t →
      tx.IsCoinbase = false →
      ∀ j, j < t.Inputs.length → ∃ digest,
        (t.Inputs.getD j ⟨[], 0, [], []⟩).Signature =
          natBytes (sigOf j digest).1 ++ natBytes (sigOf j digest).2) ∧
    (∀ r s, (natBytes r).length = (natBytes s).length →
      bytesToNat ((natBytes r ++ natBytes s).take
        ((natBytes r ++ natBytes s).length / 2)) = r ∧
      bytesToNat ((natBytes r ++ natBytes s).drop
        ((natBytes r ++ natBytes s).length / 2)) = s) ∧
    (NewTransactionCore c6Inputs c6Outputs c6PrevMap (fun _ _ => (c6GoodR, c6GoodS)) =
      some c6GoodTx ∧
     Transaction.VerifyGo ecdsaP256Verify c6GoodTx c6PrevMap = some true) ∧
    Transaction.VerifyGo ecdsaP256Verify c6TamperTx c6PrevMap = some false := by
  refine ⟨?_, ?_, ⟨by decide, by decide⟩, by decide⟩
  · intro tx prevTXs sigOf t ht hncb j hj
    unfold Transaction.SignGo at ht
    rw [hncb] at ht
    simp only [Bool.false_eq_true, if_false] at ht
    obtain ⟨u, hu, ht⟩ := bindEqSome ht
    obtain ⟨inputs1, hi, hsome⟩ := bindEqSome ht
    obtain rfl := (Option.some.inj hsome).symm
    obtain ⟨hlen, hjs⟩ := signLoop_format tx prevTXs sigOf tx.Inputs 0 inputs1 hi
    obtain ⟨digest, hd⟩ := hjs j (by simpa using hj)
    exact ⟨digest, by simpa using hd⟩
  · intro r s hlen
    have hhalf : ((natBytes r ++ natBytes s).length / 2) = (natBytes r).length := by
      simp only [List.length_append, ← hlen]
      omega
    rw [hhalf, List.take_left, List.drop_left]
    exact ⟨bytesToNat_natBytes r, bytesToNat_natBytes s⟩

/-- C6 witness: the split-recovery clause at the concrete equal-length
signature pair. -/
theorem C6_witness :
    (natBytes c6GoodR).length = (natBytes c6GoodS).length ∧
    (bytesToNat ((natBytes c6GoodR ++ natBytes c6GoodS).take
        ((natBytes c6GoodR ++ natBytes c6GoodS).length / 2)) = c6GoodR ∧
     bytesToNat ((natBytes c6GoodR ++ natBytes c6GoodS).drop
        ((natBytes c6GoodR ++ natBytes c6GoodS).length / 2)) = c6GoodS) :=
  ⟨by decide, C6_sig_roundtrip.2.1 c6GoodR c6GoodS (by decide)⟩

/-- C6 counterexample: `(c6BadR, c6BadS)` is a valid ECDSA signature of
the very digest the code signs and verifies for the test transaction —
yet the signed transaction fails verification, because `s` has a 31-byte
minimal encoding, the stored 63-byte signature is not the claim's 32+32
padded concatenation, and the verifier's midpoint split mis-parses it. -/
theorem C6_counterexample :
    NewTransactionCore c6Inputs c6Outputs c6PrevMap (fun _ _ => (c6BadR, c6BadS)) =
      some c6BadTx ∧
    ecdsaP256Verify c6X c6Y c6Digest c6BadR c6BadS = true ∧
    Transaction.VerifyGo ecdsaP256Verify c6BadTx c6PrevMap = some false ∧
    (c6BadTx.Inputs.getD 0 ⟨[], 0, [], []⟩).Signature ≠
      beBytes 32 c6BadR ++ beBytes 32 c6BadS :=
  ⟨by decide, by decide, by decide, by decide⟩

end BlockchainGo
